import Mathlib

/-!
Verification of the check-in and points ledger application (`app.py`).

Text values (names, categories, timestamps) are modelled as lists of
Unicode code points (`List Nat`), matching Python strings, which compare
lexicographically by code point.  Byte strings for the URL codec are
lists of naturals below 256.
-/

/-- Convert a Lean string literal to its list of Unicode code points,
matching a Python `str`. -/
def str2c (s : String) : List Nat :=
  s.data.map (fun c => c.toNat)

/-- Python string order: lexicographic `<=` on code points (`a <= b` in
Python). -/
def lexLe : List Nat → List Nat → Bool
  | [], _ => true
  | _ :: _, [] => false
  | a :: as, b :: bs =>
    if a < b then true
    else if a = b then lexLe as bs
    else false

/-- Code points treated as whitespace by Python `str.strip()` (ASCII
whitespace and the ideographic space). -/
def isSpaceCp (c : Nat) : Bool :=
  c = 32 || c = 9 || c = 10 || c = 13 || c = 11 || c = 12 || c = 12288

/-- Python `str.strip()`: drop whitespace from both ends. -/
def stripCp (s : List Nat) : List Nat :=
  ((s.dropWhile isSpaceCp).reverse.dropWhile isSpaceCp).reverse

/-- One row of the ledger CSV (`logs.csv`), columns
時間 / 姓名 / 類別 / 獲得點數 / 備註 (`app.py` lines 64-75). -/
structure LogRow where
  time : List Nat
  name : List Nat
  category : List Nat
  points : Nat
  note : List Nat
deriving DecidableEq

/-- `CATEGORY_POINTS` table from `app.py` lines 14-18, in insertion
order. -/
def CATEGORY_POINTS : List (List Nat × Nat) :=
  [(str2c "志工", 1), (str2c "美食", 1), (str2c "中華文化", 2)]

/-- `list(CATEGORY_POINTS.keys())`. -/
def categoryKeys : List (List Nat) :=
  CATEGORY_POINTS.map Prod.fst

/-- Dictionary lookup `CATEGORY_POINTS[c]` (as an `Option`; the caller in
`app.py` only looks up keys produced by the selectbox, which are always
present). -/
def lookupPoints (c : List Nat) : Option Nat :=
  (CATEGORY_POINTS.find? (fun p => p.1 = c)).map Prod.snd

/-- The category the check-in form submits when driven by the URL
parameter `q_category` (`app.py` lines 217-219): the selectbox is
pre-selected at `q_category` when it is a known key and at index 0 (the
first key, 志工) otherwise. -/
def selectboxCategory (q_category : List Nat) : List Nat :=
  if q_category ∈ categoryKeys then q_category else categoryKeys.headI

/-- `read_logs_csv` (`app.py` lines 68-70): returns the stored rows in
file order. -/
def read_logs_csv (store : List LogRow) : List LogRow :=
  store

/-- `append_log_csv` (`app.py` lines 72-75): re-read the CSV, place the
new row at index `len(df)` (the end), write back. -/
def append_log_csv (store : List LogRow) (row : LogRow) : List LogRow :=
  read_logs_csv store ++ [row]

/-- The submit branch of the check-in form (`app.py` lines 223-240),
driven by the URL parameter `q_category`: a blank (stripped-empty) name
only warns and writes nothing; otherwise one row is appended with the
selectbox category, its point value, the stripped name and note, and the
current time string.  Returns the new store and whether a row was
written. -/
def checkinSubmit (store : List LogRow) (name q_category note now : List Nat) :
    List LogRow × Bool :=
  if stripCp name = [] then
    (store, false)
  else
    let category := selectboxCategory q_category
    let pts := (lookupPoints category).getD 0
    (append_log_csv store ⟨now, stripCp name, category, pts, stripCp note⟩, true)

/-- `REWARDS` table from `app.py` lines 20-25, in insertion order
(threshold, reward text). -/
def REWARDS : List (Nat × List Nat) :=
  [(3, str2c "晚餐免費"), (6, str2c "手搖飲料"),
   (10, str2c "活動免費"), (20, str2c "志工慶功宴（崇德發）")]

/-- Ascending order on (threshold, reward) pairs, the order produced by
`sorted(REWARDS)` on the dictionary keys. -/
def ascThresh (p q : Nat × List Nat) : Prop := p.1 ≤ q.1

instance : DecidableRel ascThresh := fun p q => by
  unfold ascThresh; infer_instance

instance : IsTotal (Nat × List Nat) ascThresh :=
  ⟨fun a b => Nat.le_total a.1 b.1⟩

instance : IsTrans (Nat × List Nat) ascThresh :=
  ⟨fun _ _ _ h1 h2 => Nat.le_trans h1 h2⟩

/-- `sorted(REWARDS)`: the thresholds in ascending order, each with its
reward text. -/
def sortedRewards : List (Nat × List Nat) :=
  List.insertionSort ascThresh REWARDS

/-- `next_reward_hint` (`app.py` lines 87-91): scan `sorted(REWARDS)` and
on the first threshold `t` with `points < t` return the pair
`(t - points, REWARDS[t])` that is rendered as
「再 {t - points} 點可獲得「{REWARDS[t]}」」; `none` models the terminal
message 「你已達最高獎勵門檻，太強了！🎉」. -/
def next_reward_hint (points : Nat) : Option (Nat × List Nat) :=
  (sortedRewards.find? (fun r => points < r.1)).map (fun r => (r.1 - points, r.2))

/-- The `earned` list built by `reward_text` (`app.py` lines 93-95): the
rules with `points >= k`, for `k in sorted(REWARDS)`. -/
def reward_text_earned (points : Nat) : List (Nat × List Nat) :=
  sortedRewards.filter (fun r => r.1 ≤ points)

/-- Group keys of `df.groupby("姓名")`: first occurrence kept, later
duplicates dropped (the sort comes afterwards). -/
def dedupFirst : List (List Nat) → List (List Nat)
  | [] => []
  | x :: xs => x :: (dedupFirst xs).filter (fun y => y ≠ x)

/-- Sum of 獲得點數 over the rows of one participant. -/
def sumPointsFor (n : List Nat) (rs : List LogRow) : Nat :=
  ((rs.filter (fun r => r.name = n)).map LogRow.points).sum

/-- Ascending Python-string order on group keys, as `groupby` sorts
them. -/
def keyLe (a b : List Nat) : Prop := lexLe a b = true

instance : DecidableRel keyLe := fun a b => by
  unfold keyLe; infer_instance

/-- Descending order on (name, total) pairs used by
`sort_values("總點數", ascending=False)`. -/
def totalDesc (p q : List Nat × Nat) : Prop := q.2 ≤ p.2

instance : DecidableRel totalDesc := fun p q => by
  unfold totalDesc; infer_instance

instance : IsTotal (List Nat × Nat) totalDesc :=
  ⟨fun a b => Nat.le_total b.2 a.2⟩

instance : IsTrans (List Nat × Nat) totalDesc :=
  ⟨fun _ _ _ h1 h2 => Nat.le_trans h2 h1⟩

/-- `total_points_by_name` (`app.py` lines 80-85): group the rows by
姓名 (keys ascending, as `groupby` sorts), sum 獲得點數 per key, then
sort descending by the total. -/
def total_points_by_name (rs : List LogRow) : List (List Nat × Nat) :=
  List.insertionSort totalDesc
    ((List.insertionSort keyLe (dedupFirst (rs.map LogRow.name))).map
      (fun n => (n, sumPointsFor n rs)))

/-- `st.query_params.get(k, "")` (`app.py` lines 135-141) over a parsed
query-parameter association list: the first value bound to `k`, or the
empty string. -/
def getQueryParam (qs : List (List Nat × List Nat)) (k : List Nat) : List Nat :=
  ((qs.find? (fun p => p.1 = k)).map Prod.snd).getD []

/-- The six URL parameters read at `app.py` lines 135-141. -/
structure QueryState where
  mode : List Nat
  qname : List Nat
  qcategory : List Nat
  qnote : List Nat
  qlock : List Nat
  goDetail : List Nat
deriving DecidableEq

/-- The parameter-reading block of `main` (`app.py` lines 135-141): each
field is `qp.get(key, "")`. -/
def readQueryParams (qs : List (List Nat × List Nat)) : QueryState :=
  ⟨getQueryParam qs (str2c "mode"), getQueryParam qs (str2c "name"),
   getQueryParam qs (str2c "category"), getQueryParam qs (str2c "note"),
   getQueryParam qs (str2c "lock"), getQueryParam qs (str2c "go_detail")⟩

/-- The date-range filter of the 個人明細 tab (`app.py` lines 283-286):
pandas row filters `his["時間"] >= str(start_date)` and
`his["時間"] <= str(end_date)`, each applied only when the date was
picked; `str(date)` is the bare "YYYY-MM-DD" string and the comparison
is Python string order. -/
def filterByDateRange (his : List LogRow) (startD endD : Option (List Nat)) :
    List LogRow :=
  let h1 := match startD with
    | none => his
    | some s => his.filter (fun r => lexLe s r.time)
  match endD with
  | none => h1
  | some e => h1.filter (fun r => lexLe r.time e)

/-!
URL codec.  `build_url` (`app.py` lines 97-99) calls
`urllib.parse.urlencode`, which percent-encodes each key and value with
`quote_plus` over their UTF-8 bytes and joins them as `k=v&k=v`.  The
decode side is the standard URL query parsing consumed through
`st.query_params`: split on `&`, split each piece at the first `=`,
`unquote_plus` both halves.  Bytes are naturals below 256;
38 = `&`, 61 = `=`, 63 = `?`, 43 = `+`, 37 = `%`, 32 = space.
-/

/-- Bytes `quote_plus` leaves unescaped: ASCII letters, digits and
`_.-~`. -/
def isSafeByte (b : Nat) : Prop :=
  (45 ≤ b ∧ b ≤ 46) ∨ (48 ≤ b ∧ b ≤ 57) ∨ (65 ≤ b ∧ b ≤ 90) ∨
    b = 95 ∨ (97 ≤ b ∧ b ≤ 122) ∨ b = 126

instance (b : Nat) : Decidable (isSafeByte b) := by
  unfold isSafeByte; infer_instance

/-- Upper-case hex digit of a nibble, as `quote_plus` emits. -/
def hexDigit (n : Nat) : Nat :=
  if n < 10 then 48 + n else 55 + n

/-- Value of a hex digit byte (upper or lower case), as `unquote_plus`
accepts. -/
def hexVal (c : Nat) : Nat :=
  if 48 ≤ c ∧ c ≤ 57 then c - 48
  else if 65 ≤ c ∧ c ≤ 70 then c - 55
  else if 97 ≤ c ∧ c ≤ 102 then c - 87
  else 0

/-- Whether a byte is a hex digit. -/
def isHexB (c : Nat) : Bool :=
  decide ((48 ≤ c ∧ c ≤ 57) ∨ (65 ≤ c ∧ c ≤ 70) ∨ (97 ≤ c ∧ c ≤ 102))

/-- `quote_plus` on one byte: space becomes `+`, safe bytes pass
through, everything else becomes `%XX`. -/
def encodeByte (b : Nat) : List Nat :=
  if b = 32 then [43]
  else if isSafeByte b then [b]
  else [37, hexDigit (b / 16), hexDigit (b % 16)]

/-- `quote_plus` on a byte string. -/
def quotePlus : List Nat → List Nat
  | [] => []
  | b :: bs => encodeByte b ++ quotePlus bs

/-- The percent scan of `unquote`: a `%` followed by two hex digits
becomes that byte, any other `%` is kept literally and scanning resumes
at the next byte, every other byte passes through.  The first (`Nat`)
argument is fuel, always called with at least the input length, so each
step consumes one or three bytes and the fuel never runs out. -/
def unquoteF : Nat → List Nat → List Nat
  | 0, s => s
  | _ + 1, [] => []
  | fuel + 1, c :: rest =>
    if c = 37 then
      match rest with
      | h1 :: h2 :: rest2 =>
        if isHexB h1 && isHexB h2 then
          (hexVal h1 * 16 + hexVal h2) :: unquoteF fuel rest2
        else 37 :: unquoteF fuel rest
      | _ => 37 :: unquoteF fuel rest
    else c :: unquoteF fuel rest

/-- `unquote_plus`: replace `+` by space, then percent-decode — total on
every input. -/
def unquotePlus (s : List Nat) : List Nat :=
  unquoteF s.length (s.map (fun c => if c = 43 then 32 else c))

/-- Join parts with a single separator byte (`"&".join`). -/
def joinSep (sep : Nat) : List (List Nat) → List Nat
  | [] => []
  | [p] => p
  | p :: q :: ps => p ++ sep :: joinSep sep (q :: ps)

/-- Split on a separator byte (`str.split(sep)`: n separators give
n+1 parts). -/
def splitSep (sep : Nat) : List Nat → List (List Nat)
  | [] => [[]]
  | c :: rest =>
    if c = sep then [] :: splitSep sep rest
    else
      match splitSep sep rest with
      | [] => [[c]]
      | p :: ps => (c :: p) :: ps

/-- Split a query piece at its first `=`. -/
def breakEq : List Nat → List Nat × List Nat
  | [] => ([], [])
  | c :: rest =>
    if c = 61 then ([], rest)
    else ((breakEq rest).1.cons c, (breakEq rest).2)

/-- `urlencode(params)` (called by `build_url`): percent-encode each key
and value and join the `k=v` pieces with `&`. -/
def urlencodeParams (params : List (List Nat × List Nat)) : List Nat :=
  joinSep 38 (params.map (fun kv => quotePlus kv.1 ++ 61 :: quotePlus kv.2))

/-- `build_url` (`app.py` lines 97-99): `f"{base_url}?{urlencode(params)}"`. -/
def build_url (base : List Nat) (params : List (List Nat × List Nat)) : List Nat :=
  base ++ 63 :: urlencodeParams params

/-- The query part of a URL: everything after the first `?`. -/
def queryOf : List Nat → List Nat
  | [] => []
  | c :: rest => if c = 63 then rest else queryOf rest

/-- Standard query-string parsing (the transport consumed through
`st.query_params`): split on `&`, drop empty pieces, split each piece at
its first `=`, `unquote_plus` both halves. -/
def parseQuery (s : List Nat) : List (List Nat × List Nat) :=
  ((splitSep 38 s).filter (fun seg => seg ≠ [])).map
    (fun seg => (unquotePlus (breakEq seg).1, unquotePlus (breakEq seg).2))

/-- All entries of a byte string are bytes. -/
def validBytes (l : List Nat) : Prop := ∀ b ∈ l, b < 256

instance (l : List Nat) : Decidable (validBytes l) := by
  unfold validBytes; infer_instance

/-!  Helper lemmas. -/

/-- `lexLe` is reflexive. -/
theorem lexLe_refl : ∀ l : List Nat, lexLe l l = true := by
  intro l
  induction l with
  | nil => rfl
  | cons a as ih => simp [lexLe, ih]

/-- A string followed by more text is never `<=` the bare string. -/
theorem lexLe_append_cons (l : List Nat) (x : Nat) (xs : List Nat) :
    lexLe (l ++ x :: xs) l = false := by
  induction l with
  | nil => rfl
  | cons a as ih => simp [lexLe, ih]

/-- A string is `<=` any extension of itself. -/
theorem lexLe_self_append (l t : List Nat) : lexLe l (l ++ t) = true := by
  induction l with
  | nil => cases t <;> rfl
  | cons a as ih => simp [lexLe, ih]

/-- Membership is preserved by `dedupFirst`. -/
theorem mem_dedupFirst (l : List (List Nat)) (a : List Nat) :
    a ∈ dedupFirst l ↔ a ∈ l := by
  induction l with
  | nil => simp [dedupFirst]
  | cons x xs ih =>
    by_cases hax : a = x
    · subst hax; simp [dedupFirst]
    · simp [dedupFirst, List.mem_filter, hax, ih]

/-- What `str.strip()` removes: the input is edge whitespace around the
stripped value. -/
theorem stripCp_decomposition (s : List Nat) :
    ∃ pre post, s = pre ++ stripCp s ++ post ∧
      (∀ c ∈ pre, isSpaceCp c = true) ∧ (∀ c ∈ post, isSpaceCp c = true) := by
  refine ⟨s.takeWhile isSpaceCp,
    ((s.dropWhile isSpaceCp).reverse.takeWhile isSpaceCp).reverse, ?_, ?_, ?_⟩
  · have h1 : s.takeWhile isSpaceCp ++ s.dropWhile isSpaceCp = s :=
      List.takeWhile_append_dropWhile isSpaceCp s
    have h2 : (s.dropWhile isSpaceCp).reverse.takeWhile isSpaceCp ++
        (s.dropWhile isSpaceCp).reverse.dropWhile isSpaceCp =
        (s.dropWhile isSpaceCp).reverse :=
      List.takeWhile_append_dropWhile isSpaceCp (s.dropWhile isSpaceCp).reverse
    have h3 := congrArg List.reverse h2
    simp only [List.reverse_append, List.reverse_reverse] at h3
    conv_lhs => rw [← h1, ← h3]
    simp [stripCp]
  · intro c hc; exact List.mem_takeWhile_imp hc
  · intro c hc
    rw [List.mem_reverse] at hc
    exact List.mem_takeWhile_imp hc

/-- Unlocked-rule membership: the `earned` list of `reward_text` holds
exactly the rules whose threshold is reached. -/
theorem mem_reward_text_earned (points t : Nat) (w : List Nat) :
    (t, w) ∈ reward_text_earned points ↔ (t, w) ∈ REWARDS ∧ t ≤ points := by
  unfold reward_text_earned
  rw [List.mem_filter]
  have hperm := (List.perm_insertionSort ascThresh REWARDS).mem_iff
    (a := (t, w))
  unfold sortedRewards
  rw [hperm]
  simp

/-- C1 counterexample: submitting the identical check-in (same name,
category, hence same composite key) twice into an empty ledger leaves
two records with that key, not one — `app.py` performs no duplicate
scan before appending. -/
theorem C1_counterexample :
    ((checkinSubmit (checkinSubmit [] (str2c "王小明") (str2c "志工") []
        (str2c "2025-01-01 10:00:00")).1 (str2c "王小明") (str2c "志工") []
        (str2c "2025-01-01 10:05:00")).1).map (fun r => (r.name, r.category)) =
      [(str2c "王小明", str2c "志工"), (str2c "王小明", str2c "志工")] := by
  decide

/-- C1 (amended): the check-in flow has no duplicate detection — every
submission whose stripped name is non-blank unconditionally appends one
record, so two identical submissions grow the ledger by two records. -/
theorem C1_theorem (store : List LogRow) (n qc note now1 now2 : List Nat)
    (h : stripCp n ≠ []) :
    (checkinSubmit store n qc note now1).1 =
      store ++ [⟨now1, stripCp n, selectboxCategory qc,
        (lookupPoints (selectboxCategory qc)).getD 0, stripCp note⟩] ∧
    (checkinSubmit store n qc note now1).2 = true ∧
    ((checkinSubmit (checkinSubmit store n qc note now1).1 n qc note now2).1).length =
      store.length + 2 := by
  refine ⟨?_, ?_, ?_⟩ <;>
    simp [checkinSubmit, h, append_log_csv, read_logs_csv]

/-- Witness for `C1_theorem` at a concrete duplicate submission. -/
theorem C1_witness :
    (checkinSubmit [] (str2c "王小明") (str2c "志工") [] (str2c "2025-01-01 10:00:00")).1 =
      [] ++ [⟨str2c "2025-01-01 10:00:00", str2c "王小明",
        selectboxCategory (str2c "志工"),
        (lookupPoints (selectboxCategory (str2c "志工"))).getD 0, stripCp []⟩] ∧
    (checkinSubmit [] (str2c "王小明") (str2c "志工") [] (str2c "2025-01-01 10:00:00")).2 = true ∧
    ((checkinSubmit (checkinSubmit [] (str2c "王小明") (str2c "志工") []
        (str2c "2025-01-01 10:00:00")).1 (str2c "王小明") (str2c "志工") []
        (str2c "2025-01-01 10:05:00")).1).length = 2 := by
  have h := C1_theorem [] (str2c "王小明") (str2c "志工") []
    (str2c "2025-01-01 10:00:00") (str2c "2025-01-01 10:05:00") (by decide)
  simpa using h

/-- C5 counterexample: a check-in whose URL category 桌遊 is absent from
the category table is not rejected — the selectbox silently falls back
to the first category 志工, the check-in succeeds, and a record is
written. -/
theorem C5_counterexample :
    checkinSubmit [] (str2c "王小明") (str2c "桌遊") [] (str2c "2025-01-01 10:00:00") =
      ([⟨str2c "2025-01-01 10:00:00", str2c "王小明", str2c "志工", 1, []⟩], true) ∧
    str2c "桌遊" ∉ categoryKeys := by
  constructor
  · decide
  · decide

/-- C5 (amended): an unknown category in the URL parameter is silently
replaced by the first configured category (志工, worth 1 point); the
check-in proceeds and a record with that category is appended — no
validation error, no rejection. -/
theorem C5_theorem (store : List LogRow) (n qc note now : List Nat)
    (hn : stripCp n ≠ []) (hqc : qc ∉ categoryKeys) :
    checkinSubmit store n qc note now =
      (store ++ [⟨now, stripCp n, str2c "志工", 1, stripCp note⟩], true) := by
  have hsel : selectboxCategory qc = str2c "志工" := by
    unfold selectboxCategory
    rw [if_neg hqc]
    decide
  simp [checkinSubmit, hn, hsel, append_log_csv, read_logs_csv]
  decide

/-- Witness for `C5_theorem`: the unknown category 桌遊 with a concrete
name. -/
theorem C5_witness :
    checkinSubmit [] (str2c "王小明") (str2c "桌遊") [] (str2c "2025-01-01 10:00:00") =
      ([] ++ [⟨str2c "2025-01-01 10:00:00", stripCp (str2c "王小明"), str2c "志工", 1,
        stripCp []⟩], true) := by
  exact C5_theorem [] (str2c "王小明") (str2c "桌遊") [] (str2c "2025-01-01 10:00:00")
    (by decide) (by decide)

/-- C9: the CSV layer is append-only and order-preserving —
`append_log_csv` re-reads the store, keeps every existing row unchanged
in place, adds the new row at the end, and `read_logs_csv` returns the
rows in write order with no truncation, compaction or reordering. -/
theorem C9_theorem (store : List LogRow) (row : LogRow) :
    append_log_csv store row = store ++ [row] ∧
    (append_log_csv store row).take store.length = store ∧
    (append_log_csv store row).drop store.length = [row] ∧
    (append_log_csv store row).length = store.length + 1 ∧
    read_logs_csv (append_log_csv store row) = store ++ [row] ∧
    read_logs_csv store = store := by
  refine ⟨rfl, ?_, ?_, ?_, rfl, rfl⟩
  · simp [append_log_csv, read_logs_csv, List.take_left]
  · simp [append_log_csv, read_logs_csv, List.drop_left]
  · simp [append_log_csv, read_logs_csv]

/-- A query parameter is either absent (and defaults) or its value is
one of the supplied pairs — `qp.get` never raises and never invents a
value. -/
theorem getQueryParam_default_or_mem (qs : List (List Nat × List Nat))
    (k : List Nat) :
    getQueryParam qs k = [] ∨ (k, getQueryParam qs k) ∈ qs := by
  unfold getQueryParam
  cases h : qs.find? (fun p => p.1 = k) with
  | none => left; rfl
  | some p =>
    right
    have hmem := List.mem_of_find?_eq_some h
    have hp : p.1 = k := by
      have := List.find?_some h
      simpa using this
    simpa [← hp] using hmem

/-- An absent key yields the empty-string default. -/
theorem getQueryParam_default (qs : List (List Nat × List Nat))
    (k : List Nat) (h : ∀ p ∈ qs, p.1 ≠ k) :
    getQueryParam qs k = [] := by
  unfold getQueryParam
  rw [List.find?_eq_none.mpr (by simpa using h)]
  rfl

/-- C3 counterexample: decoding the empty token and an unparsable token
yields the empty string for every field; no field falls back to an
"untitled event" sentinel (and there is no title or date field at all in
the decoded state). -/
theorem C3_counterexample :
    readQueryParams [] = ⟨[], [], [], [], [], []⟩ ∧
    readQueryParams (parseQuery (str2c "not-a-valid-token")) =
      ⟨[], [], [], [], [], []⟩ ∧
    ([] : List Nat) ≠ str2c "untitled event" := by
  decide

/-- C3 (amended): decoding is total and never raises; every missing
parameter falls back to the empty string (never to a sentinel or to the
current date), and every decoded field is either that default or exactly
a supplied parameter value — the decoded fields are mode, name,
category, note, lock, go_detail. -/
theorem C3_theorem (qs : List (List Nat × List Nat)) :
    (∀ k, (∀ p ∈ qs, p.1 ≠ k) → getQueryParam qs k = []) ∧
    ((readQueryParams qs).mode = [] ∨
      (str2c "mode", (readQueryParams qs).mode) ∈ qs) ∧
    ((readQueryParams qs).qname = [] ∨
      (str2c "name", (readQueryParams qs).qname) ∈ qs) ∧
    ((readQueryParams qs).qcategory = [] ∨
      (str2c "category", (readQueryParams qs).qcategory) ∈ qs) ∧
    ((readQueryParams qs).qnote = [] ∨
      (str2c "note", (readQueryParams qs).qnote) ∈ qs) ∧
    ((readQueryParams qs).qlock = [] ∨
      (str2c "lock", (readQueryParams qs).qlock) ∈ qs) ∧
    ((readQueryParams qs).goDetail = [] ∨
      (str2c "go_detail", (readQueryParams qs).goDetail) ∈ qs) := by
  refine ⟨fun k h => getQueryParam_default qs k h, ?_, ?_, ?_, ?_, ?_, ?_⟩ <;>
    simp only [readQueryParams] <;>
    exact getQueryParam_default_or_mem qs _

/-- Witness for `C3_theorem` on a one-parameter query. -/
theorem C3_witness :
    getQueryParam [(str2c "category", str2c "志工")] (str2c "mode") = [] ∧
    ((readQueryParams [(str2c "category", str2c "志工")]).qcategory = [] ∨
      (str2c "category",
        (readQueryParams [(str2c "category", str2c "志工")]).qcategory) ∈
        [(str2c "category", str2c "志工")]) := by
  have h := C3_theorem [(str2c "category", str2c "志工")]
  exact ⟨h.1 (str2c "mode") (by decide), h.2.2.2.1⟩

/-- C7 counterexample: a record timestamped 10:00 on the end date
2024-01-05 satisfies the claimed bounds (start `<=` ts and
ts `<` end + 1 day, i.e. ts `<` 2024-01-06) yet the code's filter drops
it, because "2024-01-05 10:00:00" `<=` "2024-01-05" is false as a string
comparison. -/
theorem C7_counterexample :
    filterByDateRange
      [⟨str2c "2024-01-05 10:00:00", str2c "王小明", str2c "志工", 1, []⟩]
      (some (str2c "2024-01-02")) (some (str2c "2024-01-05")) = [] ∧
    lexLe (str2c "2024-01-02") (str2c "2024-01-05 10:00:00") = true ∧
    lexLe (str2c "2024-01-06") (str2c "2024-01-05 10:00:00") = false := by
  decide

/-- C7 (amended): the filter keeps exactly the records with
start `<=` ts and ts `<=` end under string comparison; the lower bound
therefore admits every record of the start date, but the upper bound
excludes every record of the end date, since a timestamp
"YYYY-MM-DD HH:MM:SS" extends the bare end-date string and so compares
strictly greater — the upper bound is exclusive of the end date, not
inclusive through its end. -/
theorem C7_theorem (his : List LogRow) (s e : List Nat) (r : LogRow) :
    (r ∈ filterByDateRange his (some s) (some e) ↔
      r ∈ his ∧ lexLe s r.time = true ∧ lexLe r.time e = true) ∧
    (∀ t, r.time = s ++ t → lexLe s r.time = true) ∧
    (∀ x xs, r.time = e ++ x :: xs →
      r ∉ filterByDateRange his (some s) (some e)) := by
  refine ⟨?_, ?_, ?_⟩
  · simp only [filterByDateRange, List.mem_filter]
    tauto
  · intro t ht
    rw [ht]
    exact lexLe_self_append s t
  · intro x xs ht hmem
    simp only [filterByDateRange, List.mem_filter] at hmem
    have := hmem.2
    rw [ht, lexLe_append_cons] at this
    exact Bool.false_ne_true this

/-- Witness for `C7_theorem`: the end-date record is excluded. -/
theorem C7_witness :
    (⟨str2c "2024-01-05 10:00:00", str2c "王小明", str2c "志工", 1, []⟩ : LogRow) ∉
      filterByDateRange
        [⟨str2c "2024-01-05 10:00:00", str2c "王小明", str2c "志工", 1, []⟩]
        (some (str2c "2024-01-02")) (some (str2c "2024-01-05")) := by
  exact (C7_theorem
    [⟨str2c "2024-01-05 10:00:00", str2c "王小明", str2c "志工", 1, []⟩]
    (str2c "2024-01-02") (str2c "2024-01-05")
    ⟨str2c "2024-01-05 10:00:00", str2c "王小明", str2c "志工", 1, []⟩).2.2
    32 (str2c "10:00:00") (by decide)

/-- C8 counterexample: submitting the multi-name text of the claim
produces a single ledger record whose stored 姓名 is the whole raw text
— no parenthetical stripping, no splitting on commas, 、 or whitespace,
nothing like the claimed ["Alice","Bob","Carol","Dave"]. -/
theorem C8_counterexample :
    (checkinSubmit [] (str2c "Alice(brought a friend), Bob、Carol  Dave")
        (str2c "志工") [] (str2c "2025-01-01 10:00:00")).1 =
      [⟨str2c "2025-01-01 10:00:00",
        str2c "Alice(brought a friend), Bob、Carol  Dave", str2c "志工", 1, []⟩] ∧
    str2c "Alice(brought a friend), Bob、Carol  Dave" ≠ str2c "Alice" := by
  decide

/-- C8 (amended): the code's only name normalization is
`str.strip()` — edge whitespace is removed and nothing else (the input
is edge whitespace around the stored value), and one submission stores
exactly one record whose 姓名 is the entire stripped text. -/
theorem C8_theorem (store : List LogRow) (n qc note now : List Nat)
    (h : stripCp n ≠ []) :
    (∃ pre post, n = pre ++ stripCp n ++ post ∧
      (∀ c ∈ pre, isSpaceCp c = true) ∧ (∀ c ∈ post, isSpaceCp c = true)) ∧
    ((checkinSubmit store n qc note now).1).length = store.length + 1 ∧
    ((checkinSubmit store n qc note now).1).getLast? =
      some ⟨now, stripCp n, selectboxCategory qc,
        (lookupPoints (selectboxCategory qc)).getD 0, stripCp note⟩ := by
  refine ⟨stripCp_decomposition n, ?_, ?_⟩
  · simp [checkinSubmit, h, append_log_csv, read_logs_csv]
  · simp only [checkinSubmit, append_log_csv, read_logs_csv]
    rw [if_neg h, List.getLast?_append_cons]
    rfl

/-- Witness for `C8_theorem` at the multi-name example text. -/
theorem C8_witness :
    (∃ pre post, str2c "Alice(brought a friend), Bob、Carol  Dave" =
      pre ++ stripCp (str2c "Alice(brought a friend), Bob、Carol  Dave") ++ post ∧
      (∀ c ∈ pre, isSpaceCp c = true) ∧ (∀ c ∈ post, isSpaceCp c = true)) ∧
    ((checkinSubmit [] (str2c "Alice(brought a friend), Bob、Carol  Dave")
        (str2c "志工") [] (str2c "t")).1).length = 1 ∧
    ((checkinSubmit [] (str2c "Alice(brought a friend), Bob、Carol  Dave")
        (str2c "志工") [] (str2c "t")).1).getLast? =
      some ⟨str2c "t",
        stripCp (str2c "Alice(brought a friend), Bob、Carol  Dave"),
        selectboxCategory (str2c "志工"),
        (lookupPoints (selectboxCategory (str2c "志工"))).getD 0,
        stripCp []⟩ := by
  have h := C8_theorem [] (str2c "Alice(brought a friend), Bob、Carol  Dave")
    (str2c "志工") [] (str2c "t") (by decide)
  simpa using h

/-- The thresholds appearing in the `REWARDS` table. -/
theorem REWARDS_thresholds (t : Nat) (w : List Nat) (h : (t, w) ∈ REWARDS) :
    t = 3 ∨ t = 6 ∨ t = 10 ∨ t = 20 := by
  simp [REWARDS] at h
  rcases h with ⟨h, _⟩ | ⟨h, _⟩ | ⟨h, _⟩ | ⟨h, _⟩ <;> omega

/-- Closed form of `next_reward_hint`: the first unreached threshold in
ascending order, with its gap, else the terminal result. -/
theorem next_reward_hint_eq (points : Nat) :
    next_reward_hint points =
      if points < 3 then some (3 - points, str2c "晚餐免費")
      else if points < 6 then some (6 - points, str2c "手搖飲料")
      else if points < 10 then some (10 - points, str2c "活動免費")
      else if points < 20 then some (20 - points, str2c "志工慶功宴（崇德發）")
      else none := by
  unfold next_reward_hint
  rw [show sortedRewards = REWARDS from by decide]
  unfold REWARDS
  by_cases h3 : points < 3
  · rw [List.find?_cons_of_pos _ (by simpa using h3)]
    simp [h3]
  · rw [List.find?_cons_of_neg _ (by simpa using h3)]
    by_cases h6 : points < 6
    · rw [List.find?_cons_of_pos _ (by simpa using h6)]
      simp [h3, h6]
    · rw [List.find?_cons_of_neg _ (by simpa using h6)]
      by_cases h10 : points < 10
      · rw [List.find?_cons_of_pos _ (by simpa using h10)]
        simp [h3, h6, h10]
      · rw [List.find?_cons_of_neg _ (by simpa using h10)]
        by_cases h20 : points < 20
        · rw [List.find?_cons_of_pos _ (by simpa using h20)]
          simp [h3, h6, h10, h20]
        · rw [List.find?_cons_of_neg _ (by simpa using h20)]
          simp [h3, h6, h10, h20]

/-- C2: the reward evaluator — the unlocked list holds exactly the rules
whose threshold is reached, in ascending threshold order; the hint
reports the gap to the smallest strictly-unreached threshold and is
terminal exactly when every threshold is reached; and the spec's five
example evaluations at 0, 5 and 25 points hold. -/
theorem C2_theorem :
    (∀ points t w, (t, w) ∈ reward_text_earned points ↔
      (t, w) ∈ REWARDS ∧ t ≤ points) ∧
    (∀ points, List.Sorted ascThresh (reward_text_earned points)) ∧
    (∀ points g w, next_reward_hint points = some (g, w) →
      ∃ t, (t, w) ∈ REWARDS ∧ points < t ∧ g = t - points ∧
        ∀ t2 w2, (t2, w2) ∈ REWARDS → points < t2 → t ≤ t2) ∧
    (∀ points, next_reward_hint points = none ↔
      ∀ t w, (t, w) ∈ REWARDS → t ≤ points) ∧
    reward_text_earned 0 = [] ∧
    reward_text_earned 5 = [(3, str2c "晚餐免費")] ∧
    reward_text_earned 25 = REWARDS ∧
    next_reward_hint 0 = some (3, str2c "晚餐免費") ∧
    next_reward_hint 5 = some (1, str2c "手搖飲料") ∧
    next_reward_hint 25 = none := by
  refine ⟨fun points t w => mem_reward_text_earned points t w, ?_, ?_, ?_,
    by decide, by decide, by decide, by decide, by decide, by decide⟩
  · intro points
    exact (List.sorted_insertionSort ascThresh REWARDS).filter _
  · intro points g w h
    rw [next_reward_hint_eq] at h
    split_ifs at h with h3 h6 h10 h20
    · simp only [Option.some.injEq, Prod.mk.injEq] at h
      obtain ⟨hg, hw⟩ := h
      subst hw
      refine ⟨3, by decide, h3, by omega, ?_⟩
      intro t2 w2 hm hlt
      rcases REWARDS_thresholds t2 w2 hm with h | h | h | h <;> omega
    · simp only [Option.some.injEq, Prod.mk.injEq] at h
      obtain ⟨hg, hw⟩ := h
      subst hw
      refine ⟨6, by decide, by omega, by omega, ?_⟩
      intro t2 w2 hm hlt
      rcases REWARDS_thresholds t2 w2 hm with h | h | h | h <;> omega
    · simp only [Option.some.injEq, Prod.mk.injEq] at h
      obtain ⟨hg, hw⟩ := h
      subst hw
      refine ⟨10, by decide, by omega, by omega, ?_⟩
      intro t2 w2 hm hlt
      rcases REWARDS_thresholds t2 w2 hm with h | h | h | h <;> omega
    · simp only [Option.some.injEq, Prod.mk.injEq] at h
      obtain ⟨hg, hw⟩ := h
      subst hw
      refine ⟨20, by decide, by omega, by omega, ?_⟩
      intro t2 w2 hm hlt
      rcases REWARDS_thresholds t2 w2 hm with h | h | h | h <;> omega
  · intro points
    rw [next_reward_hint_eq]
    constructor
    · intro h
      split_ifs at h with h3 h6 h10 h20
      intro t w hm
      rcases REWARDS_thresholds t w hm with ht | ht | ht | ht <;> omega
    · intro hall
      have h20 : 20 ≤ points := by
        have := hall 20 (str2c "志工慶功宴（崇德發）") (by decide)
        omega
      split_ifs <;> first | rfl | omega

/-- Witness for `C2_theorem`: the 3-point reward is unlocked at 5 points
and the 6-point reward is the minimal unmet threshold with gap 1. -/
theorem C2_witness :
    (3, str2c "晚餐免費") ∈ reward_text_earned 5 ∧
    ∃ t, (t, str2c "手搖飲料") ∈ REWARDS ∧ 5 < t ∧ 1 = t - 5 ∧
      ∀ t2 w2, (t2, w2) ∈ REWARDS → 5 < t2 → t ≤ t2 := by
  exact ⟨(C2_theorem.1 5 3 (str2c "晚餐免費")).mpr ⟨by decide, by decide⟩,
    C2_theorem.2.2.1 5 1 (str2c "手搖飲料") (by decide)⟩

/-- C10: for every point total the rule set is partitioned — each rule
is unlocked exactly when its threshold is reached — and the hinted next
threshold has a strictly positive gap and is never among the unlocked
rules. -/
theorem C10_theorem (points : Nat) :
    (∀ t w, (t, w) ∈ REWARDS →
      (t ≤ points ∧ (t, w) ∈ reward_text_earned points) ∨
      (points < t ∧ (t, w) ∉ reward_text_earned points)) ∧
    (∀ g w, next_reward_hint points = some (g, w) →
      0 < g ∧ (points + g, w) ∈ REWARDS ∧
        (points + g, w) ∉ reward_text_earned points) := by
  constructor
  · intro t w hm
    by_cases ht : t ≤ points
    · exact Or.inl ⟨ht, (mem_reward_text_earned points t w).mpr ⟨hm, ht⟩⟩
    · refine Or.inr ⟨by omega, fun hc => ?_⟩
      exact ht ((mem_reward_text_earned points t w).mp hc).2
  · intro g w h
    rw [next_reward_hint_eq] at h
    split_ifs at h with h3 h6 h10 h20
    · simp only [Option.some.injEq, Prod.mk.injEq] at h
      obtain ⟨hg, hw⟩ := h
      subst hw
      have hpg : points + g = 3 := by omega
      rw [hpg]
      refine ⟨by omega, by decide, fun hc => ?_⟩
      have := ((mem_reward_text_earned points 3 _).mp hc).2
      omega
    · simp only [Option.some.injEq, Prod.mk.injEq] at h
      obtain ⟨hg, hw⟩ := h
      subst hw
      have hpg : points + g = 6 := by omega
      rw [hpg]
      refine ⟨by omega, by decide, fun hc => ?_⟩
      have := ((mem_reward_text_earned points 6 _).mp hc).2
      omega
    · simp only [Option.some.injEq, Prod.mk.injEq] at h
      obtain ⟨hg, hw⟩ := h
      subst hw
      have hpg : points + g = 10 := by omega
      rw [hpg]
      refine ⟨by omega, by decide, fun hc => ?_⟩
      have := ((mem_reward_text_earned points 10 _).mp hc).2
      omega
    · simp only [Option.some.injEq, Prod.mk.injEq] at h
      obtain ⟨hg, hw⟩ := h
      subst hw
      have hpg : points + g = 20 := by omega
      rw [hpg]
      refine ⟨by omega, by decide, fun hc => ?_⟩
      have := ((mem_reward_text_earned points 20 _).mp hc).2
      omega

/-- Witness for `C10_theorem` at 7 points: the hinted 10-point reward
has gap 3 and is not unlocked. -/
theorem C10_witness :
    0 < 3 ∧ (7 + 3, str2c "活動免費") ∈ REWARDS ∧
      (7 + 3, str2c "活動免費") ∉ reward_text_earned 7 := by
  exact (C10_theorem 7).2 3 (str2c "活動免費") (by decide)

/-- C6: aggregation — every pair produced by `total_points_by_name` maps
a participant to the sum of that participant's 獲得點數, a participant
appears in the output iff they appear in the records, the output is
sorted descending by total, and the spec's example ledger
[(A,志工,1),(A,美食,1),(B,中華文化,2)] yields A: 2 and B: 2. -/
theorem C6_theorem :
    (∀ rs p, p ∈ total_points_by_name rs → p.2 = sumPointsFor p.1 rs) ∧
    (∀ rs n, n ∈ rs.map LogRow.name ↔ ∃ t, (n, t) ∈ total_points_by_name rs) ∧
    (∀ rs, List.Sorted totalDesc (total_points_by_name rs)) ∧
    total_points_by_name
      [⟨str2c "t1", str2c "A", str2c "志工", 1, []⟩,
       ⟨str2c "t2", str2c "A", str2c "美食", 1, []⟩,
       ⟨str2c "t3", str2c "B", str2c "中華文化", 2, []⟩] =
      [(str2c "A", 2), (str2c "B", 2)] := by
  refine ⟨?_, ?_, ?_, by decide⟩
  · intro rs p hp
    unfold total_points_by_name at hp
    rw [(List.perm_insertionSort totalDesc _).mem_iff] at hp
    obtain ⟨n, _, rfl⟩ := List.mem_map.mp hp
    rfl
  · intro rs n
    constructor
    · intro hn
      refine ⟨sumPointsFor n rs, ?_⟩
      unfold total_points_by_name
      rw [(List.perm_insertionSort totalDesc _).mem_iff]
      refine List.mem_map.mpr ⟨n, ?_, rfl⟩
      rw [(List.perm_insertionSort keyLe _).mem_iff]
      exact (mem_dedupFirst _ n).mpr hn
    · rintro ⟨t, ht⟩
      unfold total_points_by_name at ht
      rw [(List.perm_insertionSort totalDesc _).mem_iff] at ht
      obtain ⟨m, hm, heq⟩ := List.mem_map.mp ht
      have hmn : m = n := congrArg Prod.fst heq
      subst hmn
      rw [(List.perm_insertionSort keyLe _).mem_iff] at hm
      exact (mem_dedupFirst _ m).mp hm
  · intro rs
    exact List.sorted_insertionSort totalDesc _

/-- Witness for `C6_theorem`: the pair (A, 2) of the example output
carries the sum of participant A's points. -/
theorem C6_witness :
    (2 : Nat) = sumPointsFor (str2c "A")
      [⟨str2c "t1", str2c "A", str2c "志工", 1, []⟩,
       ⟨str2c "t2", str2c "A", str2c "美食", 1, []⟩,
       ⟨str2c "t3", str2c "B", str2c "中華文化", 2, []⟩] := by
  exact C6_theorem.1 _ (str2c "A", 2) (by decide)

/-- `hexVal` inverts `hexDigit` on nibbles. -/
theorem hexVal_hexDigit (n : Nat) (h : n < 16) : hexVal (hexDigit n) = n := by
  unfold hexDigit hexVal
  by_cases h10 : n < 10
  · rw [if_pos h10, if_pos (by omega)]
    omega
  · rw [if_neg h10, if_neg (by omega), if_pos (by omega)]
    omega

/-- `hexDigit` emits hex-digit bytes. -/
theorem isHexB_hexDigit (n : Nat) (h : n < 16) : isHexB (hexDigit n) = true := by
  unfold isHexB hexDigit
  by_cases h10 : n < 10
  · rw [if_pos h10]
    simp only [decide_eq_true_eq]
    omega
  · rw [if_neg h10]
    simp only [decide_eq_true_eq]
    omega

/-- Range of `hexDigit`: a digit byte or an upper-case letter byte. -/
theorem hexDigit_range (n : Nat) :
    (48 ≤ hexDigit n ∧ hexDigit n ≤ 57) ∨ 65 ≤ hexDigit n := by
  unfold hexDigit
  by_cases h10 : n < 10
  · rw [if_pos h10]
    omega
  · rw [if_neg h10]
    omega

/-- Safe bytes are none of the structural bytes of the wire format. -/
theorem isSafeByte_ne (b : Nat) (h : isSafeByte b) :
    b ≠ 32 ∧ b ≠ 37 ∧ b ≠ 38 ∧ b ≠ 43 ∧ b ≠ 61 ∧ b ≠ 63 := by
  unfold isSafeByte at h
  omega

/-- `encodeByte` never emits the separator bytes `&`, `=` or `?`. -/
theorem encodeByte_ne_sep (b : Nat) :
    (38 : Nat) ∉ encodeByte b ∧ (61 : Nat) ∉ encodeByte b ∧
      (63 : Nat) ∉ encodeByte b := by
  unfold encodeByte
  by_cases h32 : b = 32
  · rw [if_pos h32]
    simp
  · rw [if_neg h32]
    by_cases hs : isSafeByte b
    · rw [if_pos hs]
      have hne := isSafeByte_ne b hs
      simp only [List.mem_singleton]
      omega
    · rw [if_neg hs]
      have r1 := hexDigit_range (b / 16)
      have r2 := hexDigit_range (b % 16)
      simp only [List.mem_cons, List.not_mem_nil, or_false]
      omega

/-- `quotePlus` output never contains `&`, `=` or `?`. -/
theorem quotePlus_ne_sep (l : List Nat) :
    (38 : Nat) ∉ quotePlus l ∧ (61 : Nat) ∉ quotePlus l ∧
      (63 : Nat) ∉ quotePlus l := by
  induction l with
  | nil => simp [quotePlus]
  | cons b bs ih =>
    have he := encodeByte_ne_sep b
    simp only [quotePlus, List.mem_append]
    refine ⟨fun h => ?_, fun h => ?_, fun h => ?_⟩
    · rcases h with h | h
      · exact he.1 h
      · exact ih.1 h
    · rcases h with h | h
      · exact he.2.1 h
      · exact ih.2.1 h
    · rcases h with h | h
      · exact he.2.2 h
      · exact ih.2.2 h

/-- Decoding the empty byte string. -/
theorem unquoteF_nil (fuel : Nat) : unquoteF fuel [] = [] := by
  cases fuel <;> rfl

/-- Decoding inverts encoding byte-by-byte, with any sufficient fuel. -/
theorem unquoteF_quotePlus (l : List Nat) :
    validBytes l → ∀ fuel, (quotePlus l).length ≤ fuel →
      unquoteF fuel ((quotePlus l).map (fun c => if c = 43 then 32 else c)) = l := by
  induction l with
  | nil =>
    intro _ fuel _
    simp [quotePlus, unquoteF_nil]
  | cons b bs ih =>
    intro hv fuel hfuel
    have hb : b < 256 := hv b (by simp)
    have hbs : validBytes bs := fun x hx => hv x (by simp [hx])
    simp only [quotePlus] at hfuel ⊢
    by_cases h32 : b = 32
    · subst h32
      rw [show encodeByte 32 = [43] from rfl] at hfuel ⊢
      simp only [List.singleton_append, List.map_cons, List.length_cons] at hfuel ⊢
      simp only [if_true, reduceIte]
      cases fuel with
      | zero => omega
      | succ f =>
        simp only [unquoteF]
        rw [if_neg (by omega : (32 : Nat) ≠ 37)]
        exact congrArg (List.cons 32) (ih hbs f (by omega))
    · by_cases hsafe : isSafeByte b
      · rw [show encodeByte b = [b] from by
          unfold encodeByte; rw [if_neg h32, if_pos hsafe]] at hfuel ⊢
        simp only [List.singleton_append, List.map_cons, List.length_cons] at hfuel ⊢
        have hne := isSafeByte_ne b hsafe
        rw [if_neg hne.2.2.2.1]
        cases fuel with
        | zero => omega
        | succ f =>
          simp only [unquoteF]
          rw [if_neg hne.2.1]
          exact congrArg (List.cons b) (ih hbs f (by omega))
      · rw [show encodeByte b = [37, hexDigit (b / 16), hexDigit (b % 16)] from by
          unfold encodeByte; rw [if_neg h32, if_neg hsafe]] at hfuel ⊢
        simp only [List.cons_append, List.nil_append, List.map_cons,
          List.length_cons] at hfuel ⊢
        have hd1 : hexDigit (b / 16) ≠ 43 := by
          rcases hexDigit_range (b / 16) with h | h <;> omega
        have hd2 : hexDigit (b % 16) ≠ 43 := by
          rcases hexDigit_range (b % 16) with h | h <;> omega
        rw [if_neg (by omega : (37 : Nat) ≠ 43), if_neg hd1, if_neg hd2]
        cases fuel with
        | zero => omega
        | succ f =>
          have e1 := isHexB_hexDigit (b / 16) (by omega)
          have e2 := isHexB_hexDigit (b % 16) (by omega)
          have v1 := hexVal_hexDigit (b / 16) (by omega)
          have v2 := hexVal_hexDigit (b % 16) (by omega)
          have hb16 : b / 16 * 16 + b % 16 = b := by omega
          simp only [unquoteF, e1, e2, v1, v2, hb16, Bool.and_self, if_true,
            reduceIte]
          exact congrArg (List.cons b) (ih hbs f (by omega))

/-- `unquote_plus` inverts `quote_plus` on byte strings. -/
theorem unquotePlus_quotePlus (l : List Nat) (h : validBytes l) :
    unquotePlus (quotePlus l) = l := by
  unfold unquotePlus
  exact unquoteF_quotePlus l h _ le_rfl

/-- Splitting a separator-free string yields one part. -/
theorem splitSep_of_not_mem (sep : Nat) :
    ∀ a : List Nat, sep ∉ a → splitSep sep a = [a] := by
  intro a
  induction a with
  | nil => intro _; rfl
  | cons c rest ih =>
    intro h
    have hc : c ≠ sep := fun hc => h (by simp [hc])
    have hrest : sep ∉ rest := fun hm => h (by simp [hm])
    simp [splitSep, hc, ih hrest]

/-- Splitting after the first separator. -/
theorem splitSep_append (sep : Nat) :
    ∀ a b : List Nat, sep ∉ a →
      splitSep sep (a ++ sep :: b) = a :: splitSep sep b := by
  intro a
  induction a with
  | nil => intro b _; simp [splitSep]
  | cons c rest ih =>
    intro b h
    have hc : c ≠ sep := fun hc => h (by simp [hc])
    have hrest : sep ∉ rest := fun hm => h (by simp [hm])
    simp [splitSep, hc, ih b hrest]

/-- `split` inverts `join` on a non-empty list of separator-free
parts. -/
theorem splitSep_joinSep (sep : Nat) :
    ∀ parts : List (List Nat), parts ≠ [] → (∀ p ∈ parts, sep ∉ p) →
      splitSep sep (joinSep sep parts) = parts := by
  intro parts
  induction parts with
  | nil => intro h _; exact absurd rfl h
  | cons p rest ih =>
    intro _ hall
    cases rest with
    | nil => exact splitSep_of_not_mem sep p (hall p (by simp))
    | cons q ps =>
      have h1 : sep ∉ p := hall p (by simp)
      have h2 : ∀ x ∈ q :: ps, sep ∉ x := fun x hx => hall x (by simp [hx])
      simp only [joinSep]
      rw [splitSep_append sep p _ h1, ih (by simp) h2]

/-- Breaking a piece at its first `=`. -/
theorem breakEq_append :
    ∀ a b : List Nat, (61 : Nat) ∉ a → breakEq (a ++ 61 :: b) = (a, b) := by
  intro a
  induction a with
  | nil => intro b _; simp [breakEq]
  | cons c rest ih =>
    intro b h
    have hc : c ≠ 61 := fun hc => h (by simp [hc])
    have hrest : (61 : Nat) ∉ rest := fun hm => h (by simp [hm])
    simp [breakEq, hc, ih b hrest]

/-- The standard query parsing inverts `urlencode` on byte-valid
parameter lists. -/
theorem parseQuery_urlencode (ps : List (List Nat × List Nat))
    (h : ∀ kv ∈ ps, validBytes kv.1 ∧ validBytes kv.2) :
    parseQuery (urlencodeParams ps) = ps := by
  cases hps : ps with
  | nil => rfl
  | cons kv rest =>
    subst hps
    have hne : (kv :: rest).map
        (fun kv => quotePlus kv.1 ++ 61 :: quotePlus kv.2) ≠ [] := by simp
    have hnosep : ∀ p ∈ (kv :: rest).map
        (fun kv => quotePlus kv.1 ++ 61 :: quotePlus kv.2), (38 : Nat) ∉ p := by
      intro p hp
      obtain ⟨kv2, _, rfl⟩ := List.mem_map.mp hp
      intro hmem
      rcases List.mem_append.mp hmem with h1 | h1
      · exact (quotePlus_ne_sep _).1 h1
      · rcases List.mem_cons.mp h1 with h2 | h2
        · omega
        · exact (quotePlus_ne_sep _).1 h2
    unfold parseQuery urlencodeParams
    rw [splitSep_joinSep 38 _ hne hnosep]
    rw [List.filter_eq_self.mpr (by
      intro p hp
      obtain ⟨kv2, _, rfl⟩ := List.mem_map.mp hp
      simp)]
    rw [List.map_map]
    have hid : ∀ kv2 ∈ kv :: rest,
        ((fun seg => (unquotePlus (breakEq seg).1, unquotePlus (breakEq seg).2)) ∘
          (fun kv => quotePlus kv.1 ++ 61 :: quotePlus kv.2)) kv2 = kv2 := by
      intro kv2 hkv2
      obtain ⟨hv1, hv2⟩ := h kv2 hkv2
      simp only [Function.comp]
      rw [breakEq_append _ _ (quotePlus_ne_sep _).2.1]
      rw [unquotePlus_quotePlus _ hv1, unquotePlus_quotePlus _ hv2]
    rw [List.map_congr_left hid]
    simp

/-- The query part of a built URL is the encoded parameter string, as
long as the base URL itself has no `?`. -/
theorem queryOf_build (base q : List Nat) (h : (63 : Nat) ∉ base) :
    queryOf (base ++ 63 :: q) = q := by
  induction base with
  | nil => simp [queryOf]
  | cons c rest ih =>
    have hc : c ≠ 63 := fun hc => h (by simp [hc])
    have hrest : (63 : Nat) ∉ rest := fun hm => h (by simp [hm])
    simp [queryOf, hc, ih hrest]

/-- C4: codec round-trip — building a URL with `build_url` for a
descriptor (title, category, date) and decoding its query part through
the standard query parsing recovers the descriptor exactly, for every
byte-valued field (no field content can defeat the serialization, since
every byte is percent-encoded or safe). -/
theorem C4_theorem (base title cat date : List Nat) (hb : (63 : Nat) ∉ base)
    (h1 : validBytes title) (h2 : validBytes cat) (h3 : validBytes date) :
    parseQuery (queryOf (build_url base
      [(str2c "title", title), (str2c "category", cat), (str2c "date", date)])) =
      [(str2c "title", title), (str2c "category", cat), (str2c "date", date)] := by
  unfold build_url
  rw [queryOf_build _ _ hb]
  refine parseQuery_urlencode _ ?_
  intro kv hkv
  rcases List.mem_cons.mp hkv with rfl | hkv
  · exact ⟨(by decide : validBytes (str2c "title")), h1⟩
  rcases List.mem_cons.mp hkv with rfl | hkv
  · exact ⟨(by decide : validBytes (str2c "category")), h2⟩
  rcases List.mem_cons.mp hkv with rfl | hkv
  · exact ⟨(by decide : validBytes (str2c "date")), h3⟩
  · exact absurd hkv (by simp)

/-- Witness for `C4_theorem` on a concrete descriptor whose category
even contains `&`, a space and non-safe bytes. -/
theorem C4_witness :
    parseQuery (queryOf (build_url (str2c "https://x.app")
      [(str2c "title", str2c "Game Night"), (str2c "category", str2c "fun&games"),
       (str2c "date", str2c "2025-01-01")])) =
      [(str2c "title", str2c "Game Night"), (str2c "category", str2c "fun&games"),
       (str2c "date", str2c "2025-01-01")] := by
  exact C4_theorem (str2c "https://x.app") (str2c "Game Night")
    (str2c "fun&games") (str2c "2025-01-01") (by decide) (by decide) (by decide)
    (by decide)
